import Mathlib

/-!
Verification of the line-assembly front end of the `cvbvc` repository.

The development shallowly embeds the two Python modules:

* `src/utils.py` — `format_ranges`, rendering a collection of integers as a
  compressed range string;
* `src/cparser.py` — `Loc`, `LexemeType`, `Lexeme` (with `append`,
  `truncate`, `endswith`, `last_pos`, `dump`), `make_line`, the raw-line
  producer `_read_rlines`, the continuation merger `_read_clines` and the
  diagnostics formatter `error`.

Python strings are modelled as `List Char`; Python `int` is `Int`.  The
continuation merger is a generator; it is modelled as a function from the
list of raw-line lexemes to a `MergeResult` holding the units yielded, the
diagnostics emitted, and a `crashed` flag recording the uncaught
`IndexError` raised by `locs[-1]` when `last_pos` is taken on an empty
lexeme (the generator then aborts without yielding anything further).
-/

/-- The backslash character, the line-continuation marker. -/
def bslash : Char := '\\'

/-- Source position: `Loc = namedtuple('Loc', ['l', 'c'])`. -/
structure Loc where
  l : Int
  c : Int
deriving DecidableEq, Repr

/-- Strict source order on positions: earlier line, or same line and
earlier column. -/
def Loc.lt (a b : Loc) : Prop :=
  a.l < b.l ∨ (a.l = b.l ∧ a.c < b.c)

instance (a b : Loc) : Decidable (Loc.lt a b) :=
  inferInstanceAs (Decidable (a.l < b.l ∨ (a.l = b.l ∧ a.c < b.c)))

/-- The `LexemeType` enumeration of `cparser.py`. -/
inductive LexemeType where
  | LEX_UNKNOWN
  | LEX_RLINE
  | LEX_CLINE
deriving DecidableEq, Repr

/-- The `.name` of an enumeration member, as used by `Lexeme.dump`. -/
def LexemeType.name : LexemeType → String
  | .LEX_UNKNOWN => "LEX_UNKNOWN"
  | .LEX_RLINE => "LEX_RLINE"
  | .LEX_CLINE => "LEX_CLINE"

/-- The `Lexeme` class: a type tag, the accumulated text, and one source
position per character. -/
structure Lexeme where
  type : LexemeType
  text : List Char
  locs : List Loc
deriving DecidableEq, Repr

/-- `Lexeme.append`: `self.text += lexeme.text; self.locs += lexeme.locs`. -/
def Lexeme.append (a b : Lexeme) : Lexeme :=
  { a with text := a.text ++ b.text, locs := a.locs ++ b.locs }

/-- `Lexeme.truncate(count)`: when `count > 0`, `text = text[:-count]` and
`locs = locs[:-count]` (Python slicing clamps at the empty sequence);
otherwise a no-op. -/
def Lexeme.truncate (a : Lexeme) (count : Int) : Lexeme :=
  if 0 < count then
    { a with
      text := a.text.take (a.text.length - count.toNat),
      locs := a.locs.take (a.locs.length - count.toNat) }
  else a

/-- `Lexeme.endswith(s)`: `self.text.endswith(s)`. -/
def Lexeme.endswith (a : Lexeme) (s : List Char) : Bool :=
  List.isSuffixOf s a.text

/-- `Lexeme.last_pos`: Python returns `self.locs[-1]`, raising `IndexError`
on an empty list; modelled as `Option`, `none` marking the raise. -/
def Lexeme.last_pos (a : Lexeme) : Option Loc :=
  a.locs.getLast?

/-- The data-model invariant: one position per character. -/
def Lexeme.wf (a : Lexeme) : Prop :=
  a.text.length = a.locs.length

instance (a : Lexeme) : Decidable a.wf :=
  inferInstanceAs (Decidable (a.text.length = a.locs.length))

/-- `make_line(num, line)`: a fresh `LEX_RLINE` lexeme whose text is the
line and whose positions are `(num, c+1)` for each character index `c`. -/
def make_line (num : Int) (line : List Char) : Lexeme :=
  { type := .LEX_RLINE,
    text := line,
    locs := (List.range line.length).map (fun (c : Nat) => ⟨num, (c : Int) + 1⟩) }

/-- The newline stripping done inside `_read_rlines`:
`if line.endswith(chr(10)): line = line[:-1]`. -/
def stripNewline (line : List Char) : List Char :=
  if line.getLast? = some '\n' then line.dropLast else line

/-- The loop of `_read_rlines`, carrying the running line number `num`. -/
def read_rlines_from (num : Int) : List (List Char) → List Lexeme
  | [] => []
  | line :: rest => make_line num (stripNewline line) :: read_rlines_from (num + 1) rest

/-- `CParser._read_rlines`: one `LEX_RLINE` lexeme per physical line, line
numbers starting at 1. -/
def read_rlines (lines : List (List Char)) : List Lexeme :=
  read_rlines_from 1 lines

/-- A diagnostic emitted by `CParser.error`: the adjusted line and column
and the message (the file name plays no role in the claims). -/
structure Diag where
  line : Int
  col : Int
  msg : String
deriving DecidableEq, Repr

/-- `CParser.error(pos, msg, dl=, dc=)`: prints
`Error fn:l:c msg` with `l = pos.l + dl`, `c = pos.c + dc`; modelled as the
emitted record. -/
def CParser.error (pos : Loc) (msg : String) (dl : Int) (dc : Int) : Diag :=
  ⟨pos.l + dl, pos.c + dc, msg⟩

/-- Result of running the `_read_clines` generator to completion: the units
yielded (in order), the diagnostics emitted, and whether the generator
aborted with the `IndexError` from `last_pos` on an empty lexeme. -/
structure MergeResult where
  units : List Lexeme
  diags : List Diag
  crashed : Bool
deriving DecidableEq, Repr

/-- One iteration's update of `current`: take the pulled raw line verbatim
when `current is None`, otherwise retype to `LEX_CLINE` and append. -/
def foldCurrent : Option Lexeme → Lexeme → Lexeme
  | none, rline => rline
  | some c, rline => Lexeme.append { c with type := .LEX_CLINE } rline

/-- The body of `CParser._read_clines`, by recursion on the remaining raw
lines, with `cur` the `current` variable of the Python loop.  At exhaustion
with a pending `current`, Python evaluates `current.last_pos`: on an empty
lexeme this raises (modelled by `crashed := true`, nothing yielded), else
it reports `"Slashed end"` with `dc=1` and yields the pending unit. -/
def mergeStep : List Lexeme → Option Lexeme → MergeResult
  | [], none => ⟨[], [], false⟩
  | [], some cur =>
    match cur.last_pos with
    | none => ⟨[], [], true⟩
    | some p => ⟨[cur], [CParser.error p "Slashed end" 0 1], false⟩
  | rline :: rest, cur =>
    if (foldCurrent cur rline).endswith [bslash] then
      mergeStep rest (some ((foldCurrent cur rline).truncate 1))
    else
      ⟨foldCurrent cur rline :: (mergeStep rest none).units,
       (mergeStep rest none).diags, (mergeStep rest none).crashed⟩

/-- `CParser._read_clines` applied to a whole raw-line stream. -/
def read_clines (rlines : List Lexeme) : MergeResult :=
  mergeStep rlines none

/-- Rendering of a single run, as in the loop of `format_ranges`:
`f"{start}"` for a singleton, `f"{start}-{end}"` otherwise. -/
def renderRange (start e : Int) : String :=
  if start = e then toString start else toString start ++ "-" ++ toString e

/-- The scanning loop of `format_ranges` over the sorted tail, carrying the
current run `[start, e]` and emitting the rendered runs. -/
def rangesLoop (start e : Int) : List Int → List String
  | [] => [renderRange start e]
  | x :: rest =>
    if x = e + 1 then rangesLoop start x rest
    else renderRange start e :: rangesLoop x x rest

/-- `utils.format_ranges`: sort, scan greedily extending the current run
while `next == end + 1`, render each run, join with `", "`. -/
def format_ranges (numbers : List Int) : String :=
  match List.insertionSort (· ≤ ·) numbers with
  | [] => ""
  | n :: rest => String.intercalate ", " (rangesLoop n n rest)

/-- The same scanning loop, emitting the runs as closed pairs
`(start, end)` instead of their rendered strings. -/
def pairsLoop (start e : Int) : List Int → List (Int × Int)
  | [] => [(start, e)]
  | x :: rest =>
    if x = e + 1 then pairsLoop start x rest
    else (start, e) :: pairsLoop x x rest

/-- The run decomposition underlying `format_ranges`: the closed ranges the
loop emits, in order. -/
def ranges_of (numbers : List Int) : List (Int × Int) :=
  match List.insertionSort (· ≤ ·) numbers with
  | [] => []
  | n :: rest => pairsLoop n n rest

/-- Expansion of one closed range back into the integers it denotes. -/
def expandRange (r : Int × Int) : List Int :=
  (List.range (r.2 + 1 - r.1).toNat).map (fun (k : Nat) => r.1 + (k : Int))

/-- The grouping performed by `itertools.groupby(locs, key=pos.l)`:
accumulate positions while the line number stays `curLine`, emit the group
on a change of line. -/
def groupAux (curLine : Int) (acc : List Loc) : List Loc → List (List Loc)
  | [] => [acc.reverse]
  | q :: rest =>
    if q.l = curLine then groupAux curLine (q :: acc) rest
    else acc.reverse :: groupAux q.l [q] rest

/-- Maximal runs of consecutive positions sharing a line number. -/
def lineGroups : List Loc → List (List Loc)
  | [] => []
  | p :: rest => groupAux p.l [p] rest

/-- Rendering of one line group as `f"{l}:{ranges}"`, the columns going
through `format_ranges`. -/
def groupLine (g : List Loc) : String :=
  match g with
  | [] => ""
  | p :: _ => toString p.l ++ ":" ++ format_ranges (g.map Loc.c)

/-- `Lexeme._format_locs`: line groups rendered and joined with `;`. -/
def format_locs (a : Lexeme) : String :=
  String.intercalate ";" ((lineGroups a.locs).map groupLine)

/-- `Lexeme.dump`:
`f'Lexeme(type={self.type.name}, text={self.text}, locs={locs})'`. -/
def Lexeme.dump (a : Lexeme) : String :=
  "Lexeme(type=" ++ a.type.name ++ ", text=" ++ String.mk a.text ++
    ", locs=" ++ format_locs a ++ ")"

/-! ### Helper lemmas -/

theorem endswith_single (a : Lexeme) (c : Char) :
    a.endswith [c] = true ↔ a.text.getLast? = some c := by
  rw [Lexeme.endswith, List.isSuffixOf_iff_suffix, List.getLast?_eq_some_iff]
  constructor
  · rintro ⟨s, hs⟩
    exact ⟨s, hs.symm⟩
  · rintro ⟨s, hs⟩
    exact ⟨s, hs.symm⟩

theorem endswith_single_false (a : Lexeme) (c : Char) :
    a.endswith [c] = false ↔ a.text.getLast? ≠ some c := by
  constructor
  · intro h hc
    rw [← endswith_single] at hc
    rw [h] at hc
    cases hc
  · intro h
    cases hb : a.endswith [c]
    · rfl
    · exact absurd ((endswith_single a c).mp hb) h

/-! ### C10 -/

/-- C10: `format_ranges` returns `""` on `[]`, `"5"` on `[5]`, `"1-5"` on
`[1,2,3,4,5]`, `"1, 3, 5, 7"` on `[1,3,5,7]` and `"1-3, 5-6, 8"` on
`[1,2,3,5,6,8]`, runs being extended greedily and joined by `", "`. -/
theorem c10_format_ranges_examples :
    format_ranges [] = "" ∧
    format_ranges [5] = "5" ∧
    format_ranges [1, 2, 3, 4, 5] = "1-5" ∧
    format_ranges [1, 3, 5, 7] = "1, 3, 5, 7" ∧
    format_ranges [1, 2, 3, 5, 6, 8] = "1-3, 5-6, 8" :=
  ⟨rfl, by decide, by decide, by decide, by decide⟩

/-! ### C6 -/

/-- C6: `truncate count` is the identity for `count ≤ 0`, and when `count`
exceeds the current length it clamps to a full clear — empty text and empty
positions — never an inconsistent state. -/
theorem c6_truncate_clamps (lx : Lexeme) (n : Int) :
    (n ≤ 0 → lx.truncate n = lx) ∧
    (lx.wf → (lx.text.length : Int) < n →
      (lx.truncate n).text = [] ∧ (lx.truncate n).locs = []) := by
  constructor
  · intro h
    rw [Lexeme.truncate, if_neg (by omega)]
  · intro hwf hlen
    rw [Lexeme.wf] at hwf
    rw [Lexeme.truncate, if_pos (by omega)]
    have h1 : lx.text.length - n.toNat = 0 := by omega
    have h2 : lx.locs.length - n.toNat = 0 := by omega
    dsimp only
    rw [h1, h2, List.take_zero, List.take_zero]
    exact ⟨rfl, rfl⟩

/-- Concrete instantiation of `c6_truncate_clamps`. -/
theorem c6_witness :
    (Lexeme.truncate (make_line 1 ['a', 'b']) (-1) = make_line 1 ['a', 'b']) ∧
    ((Lexeme.truncate (make_line 1 ['a', 'b']) 5).text = [] ∧
      (Lexeme.truncate (make_line 1 ['a', 'b']) 5).locs = []) :=
  ⟨(c6_truncate_clamps (make_line 1 ['a', 'b']) (-1)).1 (by decide),
   (c6_truncate_clamps (make_line 1 ['a', 'b']) 5).2 (by decide) (by decide)⟩

/-! ### C5 -/

/-- C5: when the raw-line source is exhausted with a pending accumulator
holding zero characters (for example, a file whose only line is a single
backslash), the error path takes `last_pos` of an empty lexeme, which
raises an index error: no diagnostic is emitted and no final unit is
yielded.  The recovery path needs a non-empty accumulator: with at least
one position it does not crash, yields the pending unit, and emits one
diagnostic. -/
theorem c5_empty_accumulator_crash :
    read_clines (read_rlines [[bslash]]) = ⟨[], [], true⟩ ∧
    (∀ cur : Lexeme, cur.locs = [] → mergeStep [] (some cur) = ⟨[], [], true⟩) ∧
    (∀ cur : Lexeme, cur.locs ≠ [] →
      (mergeStep [] (some cur)).crashed = false ∧
      (mergeStep [] (some cur)).units = [cur] ∧
      (mergeStep [] (some cur)).diags.length = 1) := by
  refine ⟨by decide, ?_, ?_⟩
  · intro cur h
    simp [mergeStep, Lexeme.last_pos, h]
  · intro cur h
    cases hl : cur.locs.getLast? with
    | none =>
      exact absurd (List.getLast?_eq_none_iff.mp hl) h
    | some p =>
      simp [mergeStep, Lexeme.last_pos, hl]

/-- Concrete instantiation of `c5_empty_accumulator_crash`. -/
theorem c5_witness :
    (mergeStep [] (some (make_line 1 [])) = ⟨[], [], true⟩) ∧
    ((mergeStep [] (some (make_line 1 ['a']))).crashed = false ∧
      (mergeStep [] (some (make_line 1 ['a']))).units = [make_line 1 ['a']] ∧
      (mergeStep [] (some (make_line 1 ['a']))).diags.length = 1) :=
  ⟨c5_empty_accumulator_crash.2.1 (make_line 1 []) (by decide),
   c5_empty_accumulator_crash.2.2 (make_line 1 ['a']) (by decide)⟩

/-! ### C3 -/

theorem read_rlines_from_map_text :
    ∀ (lines : List (List Char)) (n : Int),
      (read_rlines_from n lines).map Lexeme.text = lines.map stripNewline := by
  intro lines
  induction lines with
  | nil => intro n; rfl
  | cons l rest ih =>
    intro n
    simp [read_rlines_from, make_line, ih]

theorem merge_no_cont :
    ∀ (rlines : List Lexeme),
      (∀ r ∈ rlines, r.text.getLast? ≠ some bslash) →
      mergeStep rlines none = ⟨rlines, [], false⟩ := by
  intro rlines
  induction rlines with
  | nil => intro _; rfl
  | cons r rest ih =>
    intro h
    have hend : r.endswith [bslash] = false :=
      (endswith_single_false r bslash).mpr (h r (List.mem_cons_self r rest))
    have hrec := ih (fun x hx => h x (List.mem_cons_of_mem _ hx))
    simp [mergeStep, foldCurrent, hend, hrec]

/-- C3: on a file with no trailing backslash on any line, the merger's
output has the same length as the raw-line producer's, and the i-th output
unit's text is the i-th input line's text. -/
theorem c3_no_continuation_id (lines : List (List Char))
    (h : ∀ line ∈ lines, (stripNewline line).getLast? ≠ some bslash) :
    (read_clines (read_rlines lines)).units.length = (read_rlines lines).length ∧
    (read_clines (read_rlines lines)).units.map Lexeme.text = lines.map stripNewline := by
  have hr : ∀ r ∈ read_rlines lines, r.text.getLast? ≠ some bslash := by
    intro r hrm
    have hmem : r.text ∈ (read_rlines lines).map Lexeme.text :=
      List.mem_map_of_mem _ hrm
    rw [read_rlines, read_rlines_from_map_text] at hmem
    rcases List.mem_map.mp hmem with ⟨line, hline, heq⟩
    exact heq ▸ h line hline
  rw [read_clines, merge_no_cont _ hr]
  exact ⟨rfl, read_rlines_from_map_text lines 1⟩

/-- Concrete instantiation of `c3_no_continuation_id`. -/
theorem c3_witness :
    (read_clines (read_rlines [['i', 'n', 't'], ['x', '\n']])).units.length =
      (read_rlines [['i', 'n', 't'], ['x', '\n']]).length ∧
    (read_clines (read_rlines [['i', 'n', 't'], ['x', '\n']])).units.map Lexeme.text =
      [['i', 'n', 't'], ['x', '\n']].map stripNewline :=
  c3_no_continuation_id [['i', 'n', 't'], ['x', '\n']] (by decide)

/-! ### C4 -/

theorem make_line_wf (num : Int) (line : List Char) : (make_line num line).wf := by
  rw [Lexeme.wf, make_line]
  dsimp only
  rw [List.length_map, List.length_range]

theorem append_wf {a b : Lexeme} (ha : a.wf) (hb : b.wf) : (a.append b).wf := by
  rw [Lexeme.wf] at *
  simp [Lexeme.append, ha, hb]

theorem truncate_wf {a : Lexeme} (n : Int) (ha : a.wf) : (a.truncate n).wf := by
  rw [Lexeme.wf] at *
  rw [Lexeme.truncate]
  split
  · simp [ha]
  · exact ha

theorem foldCurrent_wf {cur : Option Lexeme} {r : Lexeme}
    (hc : ∀ c, cur = some c → c.wf) (hr : r.wf) : (foldCurrent cur r).wf := by
  cases cur with
  | none => exact hr
  | some c => exact append_wf (hc c rfl) hr

theorem read_rlines_from_wf :
    ∀ (lines : List (List Char)) (n : Int), ∀ r ∈ read_rlines_from n lines, r.wf := by
  intro lines
  induction lines with
  | nil => intro n r hr; cases hr
  | cons l rest ih =>
    intro n r hr
    rcases List.mem_cons.mp hr with h | h
    · exact h ▸ make_line_wf n (stripNewline l)
    · exact ih (n + 1) r h

theorem mergeStep_wf :
    ∀ (rlines : List Lexeme) (cur : Option Lexeme),
      (∀ r ∈ rlines, r.wf) → (∀ c, cur = some c → c.wf) →
      ∀ u ∈ (mergeStep rlines cur).units, u.wf := by
  intro rlines
  induction rlines with
  | nil =>
    intro cur hr hc u hu
    cases cur with
    | none => cases hu
    | some c =>
      cases hl : c.last_pos with
      | none => simp [mergeStep, hl] at hu
      | some p =>
        simp [mergeStep, hl] at hu
        exact hu ▸ hc c rfl
  | cons r rest ih =>
    intro cur hr hc u hu
    have hcw : (foldCurrent cur r).wf :=
      foldCurrent_wf hc (hr r (List.mem_cons_self r rest))
    have hrest : ∀ x ∈ rest, x.wf := fun x hx => hr x (List.mem_cons_of_mem _ hx)
    rw [mergeStep] at hu
    split at hu
    · exact ih (some ((foldCurrent cur r).truncate 1)) hrest
        (fun c hceq => by cases hceq; exact truncate_wf 1 hcw) u hu
    · rcases List.mem_cons.mp hu with h | h
      · exact h ▸ hcw
      · exact ih none hrest (fun c hceq => by cases hceq) u h

/-- C4: every located text unit keeps `length(text) = length(positions)`:
units created by `make_line` satisfy it, `append` and `truncate` preserve
it, and hence every unit yielded by the continuation merger satisfies
it. -/
theorem c4_length_invariant :
    (∀ (num : Int) (line : List Char), (make_line num line).wf) ∧
    (∀ a b : Lexeme, a.wf → b.wf → (a.append b).wf) ∧
    (∀ (a : Lexeme) (n : Int), a.wf → (a.truncate n).wf) ∧
    (∀ (lines : List (List Char)) (u : Lexeme),
      u ∈ (read_clines (read_rlines lines)).units → u.wf) := by
  refine ⟨make_line_wf, fun a b ha hb => append_wf ha hb,
    fun a n ha => truncate_wf n ha, ?_⟩
  intro lines u hu
  exact mergeStep_wf (read_rlines lines) none
    (read_rlines_from_wf lines 1) (fun c hceq => by cases hceq) u hu

/-- Concrete instantiation of `c4_length_invariant`. -/
theorem c4_witness :
    (make_line 1 ['a']).wf ∧
    (Lexeme.append (make_line 1 ['a']) (make_line 2 ['b'])).wf ∧
    (Lexeme.truncate (make_line 1 ['a', 'b']) 1).wf ∧
    (make_line 1 ['b', 'c']).wf :=
  ⟨c4_length_invariant.1 1 ['a'],
   c4_length_invariant.2.1 _ _ (by decide) (by decide),
   c4_length_invariant.2.2.1 _ 1 (by decide),
   c4_length_invariant.2.2.2 [['b', 'c']] _ (by decide)⟩

/-! ### C9 -/

theorem read_rlines_from_length (lines : List (List Char)) (n : Int) :
    (read_rlines_from n lines).length = lines.length := by
  have h := congrArg List.length (read_rlines_from_map_text lines n)
  simpa using h

theorem read_rlines_from_getElem :
    ∀ (lines : List (List Char)) (n : Int) (i : Nat),
      (read_rlines_from n lines)[i]? =
        (lines[i]?).map (fun line => make_line (n + (i : Int)) (stripNewline line)) := by
  intro lines
  induction lines with
  | nil => intro n i; simp [read_rlines_from]
  | cons l rest ih =>
    intro n i
    cases i with
    | zero =>
      simp [read_rlines_from]
    | succ j =>
      rw [read_rlines_from]
      rw [List.getElem?_cons_succ, List.getElem?_cons_succ, ih (n + 1) j]
      have harith : n + 1 + (j : Int) = n + ((j : Nat) + 1 : Nat) := by
        push_cast
        ring
      rw [harith]

/-- C9: the raw-line producer yields one `LEX_RLINE` unit per physical
line, in order; the i-th unit's text is the i-th line with any trailing
newline stripped, its line number is `i+1` (1-based), and its j-th
position is `(i+1, j+1)`. -/
theorem c9_raw_line_producer (lines : List (List Char)) :
    (read_rlines lines).length = lines.length ∧
    ∀ i, (hi : i < lines.length) →
      ∃ u, (read_rlines lines)[i]? = some u ∧
        u.type = .LEX_RLINE ∧
        u.text = stripNewline lines[i] ∧
        u.locs.length = u.text.length ∧
        ∀ j, j < u.text.length → u.locs[j]? = some ⟨(i : Int) + 1, (j : Int) + 1⟩ := by
  constructor
  · exact read_rlines_from_length lines 1
  · intro i hi
    refine ⟨make_line ((i : Int) + 1) (stripNewline lines[i]), ?_, rfl, rfl, ?_, ?_⟩
    · rw [read_rlines, read_rlines_from_getElem, List.getElem?_eq_getElem hi]
      rw [Int.add_comm 1 (i : Int)]
      rfl
    · exact (make_line_wf _ _).symm
    · intro j hj
      have hj' : j < (stripNewline lines[i]).length := hj
      rw [make_line]
      dsimp only
      rw [List.getElem?_map, List.getElem?_range hj']
      rfl

/-- Concrete instantiation of `c9_raw_line_producer`. -/
theorem c9_witness :
    (read_rlines [['a', 'b', '\n'], ['c']]).length = 2 ∧
    ∃ u, (read_rlines [['a', 'b', '\n'], ['c']])[1]? = some u ∧
      u.type = .LEX_RLINE ∧
      u.text = stripNewline ['c'] ∧
      u.locs.length = u.text.length ∧
      ∀ j, j < u.text.length → u.locs[j]? = some ⟨(1 : Int) + 1, (j : Int) + 1⟩ :=
  ⟨(c9_raw_line_producer [['a', 'b', '\n'], ['c']]).1,
   (c9_raw_line_producer [['a', 'b', '\n'], ['c']]).2 1 (by decide)⟩

/-! ### C2 -/

theorem mergeStep_cons_true {r : Lexeme} {rest : List Lexeme} {cur : Option Lexeme}
    (h : (foldCurrent cur r).endswith [bslash] = true) :
    mergeStep (r :: rest) cur = mergeStep rest (some ((foldCurrent cur r).truncate 1)) := by
  rw [mergeStep, if_pos h]

theorem mergeStep_cons_false {r : Lexeme} {rest : List Lexeme} {cur : Option Lexeme}
    (h : (foldCurrent cur r).endswith [bslash] = false) :
    mergeStep (r :: rest) cur =
      ⟨foldCurrent cur r :: (mergeStep rest none).units,
       (mergeStep rest none).diags, (mergeStep rest none).crashed⟩ := by
  rw [mergeStep, if_neg (by rw [h]; exact Bool.false_ne_true)]

theorem truncate_make_line (num : Int) (line : List Char) :
    (make_line num line).truncate 1 =
      { type := .LEX_RLINE,
        text := line.dropLast,
        locs := (List.range (line.length - 1)).map
          (fun (k : Nat) => ⟨num, (k : Int) + 1⟩) } := by
  rw [Lexeme.truncate, if_pos (by omega : (0 : Int) < 1)]
  rw [make_line]
  dsimp only
  have ht : line.take (line.length - (1 : Int).toNat) = line.dropLast := by
    rw [Int.toNat_one, List.dropLast_eq_take]
  have hl :
      ((List.range line.length).map
          (fun (k : Nat) => (⟨num, (k : Int) + 1⟩ : Loc))).take
        (((List.range line.length).map
            (fun (k : Nat) => (⟨num, (k : Int) + 1⟩ : Loc))).length - (1 : Int).toNat) =
      (List.range (line.length - 1)).map
        (fun (k : Nat) => (⟨num, (k : Int) + 1⟩ : Loc)) := by
    rw [Int.toNat_one, List.length_map, List.length_range, ← List.map_take,
      List.take_range, Nat.min_eq_left (Nat.sub_le _ _)]
  rw [ht, hl]

theorem loc_lt_same_line (l : Int) {a b : Int} (h : a < b) :
    Loc.lt ⟨l, a⟩ ⟨l, b⟩ :=
  Or.inr ⟨rfl, h⟩

theorem loc_lt_line {la lb ca cb : Int} (h : la < lb) :
    Loc.lt ⟨la, ca⟩ ⟨lb, cb⟩ :=
  Or.inl h

/-- C2 fails as stated: for the raw lines `"\\\\"` (two backslashes, the
first line thus ending in a trailing backslash) followed by the empty raw
line, the merged text ends in a backslash again, the merger keeps folding,
and at exhaustion it crashes on the empty accumulator: zero units are
yielded, not the claimed single unit. -/
theorem c2_counterexample :
    (['\\', '\\'] : List Char).getLast? = some bslash ∧
    (([] : List Char).getLast? = some bslash → False) ∧
    (read_clines [make_line 1 ['\\', '\\'], make_line 2 []]).units.length = 0 :=
  ⟨by decide, by decide, by decide⟩

/-- C2 amended: for a raw line ending in a trailing backslash followed by a
raw line not ending in a backslash, *provided the concatenation of the
first line without its backslash and the second line does not itself end
in a backslash*, the merger yields exactly one logical unit: its text is
the concatenation with the backslash removed, its positions sequence has
length `len(line1) - 1 + len(line2)`, and the positions are in strict
original source order. -/
theorem c2_amended (l1 l2 : List Char)
    (h1 : l1.getLast? = some bslash)
    (h3 : (l1.dropLast ++ l2).getLast? ≠ some bslash) :
    ∃ u, (read_clines [make_line 1 l1, make_line 2 l2]).units = [u] ∧
      u.text = l1.dropLast ++ l2 ∧
      u.locs = (List.range (l1.length - 1)).map (fun (k : Nat) => ⟨1, (k : Int) + 1⟩) ++
               (List.range l2.length).map (fun (k : Nat) => ⟨2, (k : Int) + 1⟩) ∧
      u.locs.length = (l1.length - 1) + l2.length ∧
      u.locs.Pairwise Loc.lt := by
  have hend1 : (foldCurrent none (make_line 1 l1)).endswith [bslash] = true :=
    (endswith_single (make_line 1 l1) bslash).mpr h1
  have e1 : read_clines [make_line 1 l1, make_line 2 l2]
      = mergeStep [make_line 2 l2] (some ((make_line 1 l1).truncate 1)) := by
    rw [read_clines, mergeStep_cons_true hend1]
    rfl
  rw [truncate_make_line] at e1
  have hcur2 : foldCurrent
      (some { type := .LEX_RLINE,
              text := l1.dropLast,
              locs := (List.range (l1.length - 1)).map
                (fun (k : Nat) => (⟨1, (k : Int) + 1⟩ : Loc)) })
      (make_line 2 l2) =
      { type := .LEX_CLINE,
        text := l1.dropLast ++ l2,
        locs := (List.range (l1.length - 1)).map
            (fun (k : Nat) => (⟨1, (k : Int) + 1⟩ : Loc)) ++
          (List.range l2.length).map (fun (k : Nat) => (⟨2, (k : Int) + 1⟩ : Loc)) } := rfl
  have hend2 : (foldCurrent
      (some { type := .LEX_RLINE,
              text := l1.dropLast,
              locs := (List.range (l1.length - 1)).map
                (fun (k : Nat) => (⟨1, (k : Int) + 1⟩ : Loc)) })
      (make_line 2 l2)).endswith [bslash] = false := by
    rw [hcur2]
    exact (endswith_single_false _ bslash).mpr h3
  have e2 := @mergeStep_cons_false _ [] _ hend2
  rw [hcur2] at e2
  refine ⟨{ type := .LEX_CLINE,
            text := l1.dropLast ++ l2,
            locs := (List.range (l1.length - 1)).map
                (fun (k : Nat) => (⟨1, (k : Int) + 1⟩ : Loc)) ++
              (List.range l2.length).map
                (fun (k : Nat) => (⟨2, (k : Int) + 1⟩ : Loc)) },
    ?_, rfl, rfl, ?_, ?_⟩
  · rw [e1, e2]
    rfl
  · simp
  · rw [List.pairwise_append]
    refine ⟨?_, ?_, ?_⟩
    · rw [List.pairwise_map]
      exact (List.pairwise_lt_range _).imp (fun h => loc_lt_same_line 1 (by omega))
    · rw [List.pairwise_map]
      exact (List.pairwise_lt_range _).imp (fun h => loc_lt_same_line 2 (by omega))
    · intro a ha b hb
      rcases List.mem_map.mp ha with ⟨i, _, hi⟩
      rcases List.mem_map.mp hb with ⟨j, _, hj⟩
      rw [← hi, ← hj]
      exact loc_lt_line (by omega)

/-- Concrete instantiation of `c2_amended`. -/
theorem c2_witness :
    ∃ u, (read_clines [make_line 1 ['a', '\\'], make_line 2 ['b', 'c']]).units = [u] ∧
      u.text = (['a', '\\'] : List Char).dropLast ++ ['b', 'c'] ∧
      u.locs = (List.range ((['a', '\\'] : List Char).length - 1)).map
          (fun (k : Nat) => ⟨1, (k : Int) + 1⟩) ++
        (List.range (['b', 'c'] : List Char).length).map
          (fun (k : Nat) => ⟨2, (k : Int) + 1⟩) ∧
      u.locs.length = ((['a', '\\'] : List Char).length - 1) +
        (['b', 'c'] : List Char).length ∧
      u.locs.Pairwise Loc.lt :=
  c2_amended ['a', '\\'] ['b', 'c'] (by decide) (by decide)

/-! ### C1 -/

theorem foldCurrent_endswith_of_getLast (cur : Option Lexeme) (r : Lexeme) {ch : Char}
    (h : r.text.getLast? = some ch) :
    (foldCurrent cur r).endswith [ch] = true := by
  rw [endswith_single]
  cases cur with
  | none => exact h
  | some c =>
    show (c.text ++ r.text).getLast? = some ch
    rw [List.getLast?_append, h]
    rfl

theorem merge_pending_end :
    ∀ (rlines : List Lexeme) (cur : Option Lexeme) (r : Lexeme),
      rlines.getLast? = some r →
      r.text.getLast? = some bslash →
      (mergeStep rlines cur).crashed = false →
      ∃ u p, (mergeStep rlines cur).units.getLast? = some u ∧
        u.last_pos = some p ∧
        (mergeStep rlines cur).diags = [⟨p.l, p.c + 1, "Slashed end"⟩] := by
  intro rlines
  induction rlines with
  | nil =>
    intro cur r hlast
    cases hlast
  | cons r0 rest ih =>
    intro cur r hlast hslash hcrash
    cases rest with
    | nil =>
      have hr : r = r0 := by
        have : some r0 = some r := hlast
        exact (Option.some.injEq _ _ ▸ this).symm
      subst hr
      have hend : (foldCurrent cur r).endswith [bslash] = true :=
        foldCurrent_endswith_of_getLast cur r hslash
      rw [mergeStep_cons_true hend] at hcrash ⊢
      cases hp : ((foldCurrent cur r).truncate 1).last_pos with
      | none =>
        rw [show mergeStep [] (some ((foldCurrent cur r).truncate 1)) = ⟨[], [], true⟩ from
          by rw [mergeStep, hp]] at hcrash
        cases hcrash
      | some p =>
        refine ⟨(foldCurrent cur r).truncate 1, p, ?_, hp, ?_⟩
        · rw [show mergeStep [] (some ((foldCurrent cur r).truncate 1)) =
            ⟨[(foldCurrent cur r).truncate 1],
             [CParser.error p "Slashed end" 0 1], false⟩ from by rw [mergeStep, hp]]
          rfl
        · rw [show mergeStep [] (some ((foldCurrent cur r).truncate 1)) =
            ⟨[(foldCurrent cur r).truncate 1],
             [CParser.error p "Slashed end" 0 1], false⟩ from by rw [mergeStep, hp]]
          show [CParser.error p "Slashed end" 0 1] = _
          rw [CParser.error]
          simp
    | cons r1 rest' =>
      have hlast' : (r1 :: rest').getLast? = some r := by
        rw [← List.getLast?_cons_cons]
        exact hlast
      cases hb : (foldCurrent cur r0).endswith [bslash] with
      | true =>
        rw [mergeStep_cons_true hb] at hcrash ⊢
        exact ih (some ((foldCurrent cur r0).truncate 1)) r hlast' hslash hcrash
      | false =>
        rw [mergeStep_cons_false hb] at hcrash ⊢
        obtain ⟨u, p, hu, hp, hd⟩ := ih none r hlast' hslash hcrash
        refine ⟨u, p, ?_, hp, hd⟩
        cases hus : (mergeStep (r1 :: rest') none).units with
        | nil => rw [hus] at hu; cases hu
        | cons v vs =>
          rw [hus] at hu
          show (foldCurrent cur r0 :: v :: vs).getLast? = some u
          rw [List.getLast?_cons_cons]
          exact hu

theorem read_rlines_from_getLast :
    ∀ (lines : List (List Char)) (n : Int) (l : List Char),
      lines.getLast? = some l →
      ∃ m : Int, (read_rlines_from n lines).getLast? = some (make_line m (stripNewline l)) := by
  intro lines
  induction lines with
  | nil =>
    intro n l h
    cases h
  | cons l0 rest ih =>
    intro n l h
    cases rest with
    | nil =>
      have hl : l = l0 := by
        have : some l0 = some l := h
        exact (Option.some.injEq _ _ ▸ this).symm
      subst hl
      exact ⟨n, rfl⟩
    | cons l1 rest' =>
      have h' : (l1 :: rest').getLast? = some l := by
        rw [← List.getLast?_cons_cons]
        exact h
      obtain ⟨m, hm⟩ := ih (n + 1) l h'
      refine ⟨m, ?_⟩
      rw [read_rlines_from]
      cases hrr : read_rlines_from (n + 1) (l1 :: rest') with
      | nil => rw [hrr] at hm; cases hm
      | cons v vs =>
        rw [hrr] at hm
        rw [List.getLast?_cons_cons]
        exact hm

/-- C1 fails as stated: the file whose single physical line is one
backslash ends in an unescaped trailing backslash with no following line,
yet the merger emits no diagnostic and yields no final unit — it crashes
on `last_pos` of the empty accumulator instead of recovering. -/
theorem c1_counterexample :
    (stripNewline ['\\']).getLast? = some bslash ∧
    (read_clines (read_rlines [['\\']])).diags = [] ∧
    (read_clines (read_rlines [['\\']])).units = [] ∧
    (read_clines (read_rlines [['\\']])).crashed = true :=
  ⟨by decide, by decide, by decide, by decide⟩

/-- C1 amended: for a file whose last physical line ends in a trailing
backslash with no following line, *provided the merger does not hit the
empty-accumulator index error* (equivalently, the backslash-stripped
partial unit retains at least one character), exactly one diagnostic is
emitted — `"Slashed end"` at `(p.l, p.c + 1)` where `p` is the last
position of the partial unit — and that backslash-stripped partial unit is
still yielded as the final output element. -/
theorem c1_amended (lines : List (List Char)) (l : List Char)
    (hlast : lines.getLast? = some l)
    (hslash : (stripNewline l).getLast? = some bslash)
    (hcrash : (read_clines (read_rlines lines)).crashed = false) :
    ∃ u p, (read_clines (read_rlines lines)).units.getLast? = some u ∧
      u.last_pos = some p ∧
      (read_clines (read_rlines lines)).diags = [⟨p.l, p.c + 1, "Slashed end"⟩] := by
  obtain ⟨m, hm⟩ := read_rlines_from_getLast lines 1 l hlast
  exact merge_pending_end (read_rlines lines) none
    (make_line m (stripNewline l)) hm hslash hcrash

/-- Concrete instantiation of `c1_amended`. -/
theorem c1_witness :
    ∃ u p, (read_clines (read_rlines [['a', '\\']])).units.getLast? = some u ∧
      u.last_pos = some p ∧
      (read_clines (read_rlines [['a', '\\']])).diags = [⟨p.l, p.c + 1, "Slashed end"⟩] :=
  c1_amended [['a', '\\']] ['a', '\\'] (by decide) (by decide) (by decide)

/-! ### C7 -/

theorem groupAux_join :
    ∀ (rest : List Loc) (k : Int) (acc : List Loc),
      (groupAux k acc rest).flatten = acc.reverse ++ rest := by
  intro rest
  induction rest with
  | nil =>
    intro k acc
    simp [groupAux]
  | cons q rest ih =>
    intro k acc
    rw [groupAux]
    split
    · rw [ih]
      simp
    · simp [ih]

theorem lineGroups_join (locs : List Loc) : (lineGroups locs).flatten = locs := by
  cases locs with
  | nil => rfl
  | cons p rest =>
    rw [lineGroups, groupAux_join]
    rfl

theorem groupAux_groups :
    ∀ (rest : List Loc) (k : Int) (acc : List Loc),
      acc ≠ [] → (∀ p ∈ acc, p.l = k) →
      ∀ g ∈ groupAux k acc rest, g ≠ [] ∧ ∀ p ∈ g, ∀ q ∈ g, p.l = q.l := by
  intro rest
  induction rest with
  | nil =>
    intro k acc hne hk g hg
    rw [groupAux] at hg
    rcases List.mem_singleton.mp hg with rfl
    refine ⟨by simpa using hne, ?_⟩
    intro p hp q hq
    rw [hk p (List.mem_reverse.mp hp), hk q (List.mem_reverse.mp hq)]
  | cons x rest ih =>
    intro k acc hne hk g hg
    rw [groupAux] at hg
    split at hg
    · exact ih k (x :: acc) (by simp)
        (fun p hp => by
          rcases List.mem_cons.mp hp with rfl | hp
          · assumption
          · exact hk p hp) g hg
    · rcases List.mem_cons.mp hg with rfl | hg
      · refine ⟨by simpa using hne, ?_⟩
        intro p hp q hq
        rw [hk p (List.mem_reverse.mp hp), hk q (List.mem_reverse.mp hq)]
      · exact ih x.l [x] (by simp) (by simp) g hg

theorem groupAux_head_line :
    ∀ (rest : List Loc) (k : Int) (acc : List Loc),
      (∀ p ∈ acc, p.l = k) →
      ∀ g, (groupAux k acc rest).head? = some g → ∀ p ∈ g, p.l = k := by
  intro rest
  induction rest with
  | nil =>
    intro k acc hk g hg p hp
    rw [groupAux] at hg
    rcases Option.some.injEq _ _ ▸ hg with rfl
    exact hk p (List.mem_reverse.mp hp)
  | cons x rest ih =>
    intro k acc hk g hg p hp
    rw [groupAux] at hg
    split at hg
    · refine ih k (x :: acc) ?_ g hg p hp
      intro r hr
      rcases List.mem_cons.mp hr with rfl | hr
      · assumption
      · exact hk r hr
    · rcases Option.some.injEq _ _ ▸ hg with rfl
      exact hk p (List.mem_reverse.mp hp)

theorem groupAux_chain :
    ∀ (rest : List Loc) (k : Int) (acc : List Loc),
      (∀ p ∈ acc, p.l = k) →
      List.Chain' (fun g h => ∀ p ∈ g, ∀ q ∈ h, p.l ≠ q.l) (groupAux k acc rest) := by
  intro rest
  induction rest with
  | nil =>
    intro k acc _
    rw [groupAux]
    exact List.chain'_singleton _
  | cons x rest ih =>
    intro k acc hk
    rw [groupAux]
    split
    · refine ih k (x :: acc) ?_
      intro r hr
      rcases List.mem_cons.mp hr with rfl | hr
      · assumption
      · exact hk r hr
    · rw [List.chain'_cons']
      refine ⟨?_, ih x.l [x] (by simp)⟩
      intro h hh p hp q hq
      have hpk : p.l = k := hk p (List.mem_reverse.mp hp)
      have hqx : q.l = x.l := groupAux_head_line rest x.l [x] (by simp) h hh q hq
      rw [hpk, hqx]
      intro hcon
      exact absurd hcon.symm (by assumption)

/-- C7 fails on its own example: for the lexeme whose positions are, in
source order, line 3 columns 1,2,3,4,6 then line 4 columns 1,2, the
`groupby`-based rendering puts all consecutive line-3 positions in one
group, producing `"3:1-4, 6;4:1-2"` — not the exemplified
`"3:1-4;3:6;4:1-2"`, which would need two adjacent groups with the same
line label, something the grouping can never emit. -/
theorem c7_counterexample :
    format_locs ⟨.LEX_CLINE, ['a', 'b', 'c', 'd', 'e', 'f', 'g'],
        [⟨3, 1⟩, ⟨3, 2⟩, ⟨3, 3⟩, ⟨3, 4⟩, ⟨3, 6⟩, ⟨4, 1⟩, ⟨4, 2⟩]⟩ = "3:1-4, 6;4:1-2" ∧
    ("3:1-4, 6;4:1-2" : String) ≠ "3:1-4;3:6;4:1-2" :=
  ⟨by decide, by decide⟩

/-- C7 amended: `dump` renders the kind name, the raw text, and the
positions grouped by line — consecutive positions sharing a line form one
group, in original order, adjacent groups having distinct lines — each
group's columns rendered by the range formatter and groups joined with
`;`; output shape as in `"3:1-4, 6;4:1-2"`. -/
theorem c7_amended :
    (∀ locs : List Loc, (lineGroups locs).flatten = locs) ∧
    (∀ locs : List Loc, ∀ g ∈ lineGroups locs, g ≠ [] ∧ ∀ p ∈ g, ∀ q ∈ g, p.l = q.l) ∧
    (∀ locs : List Loc,
      List.Chain' (fun g h => ∀ p ∈ g, ∀ q ∈ h, p.l ≠ q.l) (lineGroups locs)) ∧
    (∀ a : Lexeme, a.dump = "Lexeme(type=" ++ a.type.name ++ ", text=" ++
      String.mk a.text ++ ", locs=" ++
      String.intercalate ";" ((lineGroups a.locs).map groupLine) ++ ")") ∧
    (Lexeme.dump ⟨.LEX_CLINE, ['a', 'b', 'c', 'd', 'e', 'f', 'g'],
        [⟨3, 1⟩, ⟨3, 2⟩, ⟨3, 3⟩, ⟨3, 4⟩, ⟨3, 6⟩, ⟨4, 1⟩, ⟨4, 2⟩]⟩ =
      "Lexeme(type=LEX_CLINE, text=abcdefg, locs=3:1-4, 6;4:1-2)") := by
  refine ⟨lineGroups_join, ?_, ?_, fun a => rfl, by decide⟩
  · intro locs g hg
    cases locs with
    | nil => cases hg
    | cons p rest =>
      exact groupAux_groups rest p.l [p] (by simp) (by simp) g hg
  · intro locs
    cases locs with
    | nil => exact List.chain'_nil
    | cons p rest =>
      exact groupAux_chain rest p.l [p] (by simp)

/-- Concrete instantiation of `c7_amended`. -/
theorem c7_witness :
    (([⟨3, 1⟩] : List Loc) ≠ [] ∧
      ∀ p ∈ ([⟨3, 1⟩] : List Loc), ∀ q ∈ ([⟨3, 1⟩] : List Loc), p.l = q.l) :=
  c7_amended.2.1 [⟨3, 1⟩, ⟨4, 2⟩] [⟨3, 1⟩] (by decide)

/-! ### C8 -/

theorem rangesLoop_eq_map :
    ∀ (rest : List Int) (start e : Int),
      rangesLoop start e rest = (pairsLoop start e rest).map (fun r => renderRange r.1 r.2) := by
  intro rest
  induction rest with
  | nil =>
    intro start e
    simp [rangesLoop, pairsLoop]
  | cons x rest ih =>
    intro start e
    rw [rangesLoop, pairsLoop]
    by_cases h : x = e + 1
    · rw [if_pos h, if_pos h, ih]
    · rw [if_neg h, if_neg h, List.map_cons, ih]

theorem expandRange_refl (a : Int) : expandRange (a, a) = [a] := by
  rw [expandRange]
  dsimp only
  rw [show (a + 1 - a).toNat = 1 from by omega,
    show List.range 1 = [0] from rfl]
  simp

theorem expandRange_snoc {a e : Int} (h : a ≤ e) :
    expandRange (a, e + 1) = expandRange (a, e) ++ [e + 1] := by
  rw [expandRange, expandRange]
  dsimp only
  rw [show (e + 1 + 1 - a).toNat = (e + 1 - a).toNat + 1 from by omega]
  rw [List.range_succ, List.map_append]
  congr 1
  simp
  omega

theorem pairsLoop_expand :
    ∀ (rest : List Int) (start e : Int), start ≤ e →
      List.Chain' (· < ·) (e :: rest) →
      ((pairsLoop start e rest).map expandRange).flatten = expandRange (start, e) ++ rest := by
  intro rest
  induction rest with
  | nil =>
    intro start e _ _
    simp [pairsLoop]
  | cons x rest ih =>
    intro start e hse hch
    have hex : e < x := (List.chain'_cons.mp hch).1
    have hch' : List.Chain' (· < ·) (x :: rest) := (List.chain'_cons.mp hch).2
    rw [pairsLoop]
    by_cases hx : x = e + 1
    · rw [if_pos hx]
      rw [ih start x (by omega) hch']
      subst hx
      rw [expandRange_snoc hse]
      simp
    · rw [if_neg hx]
      rw [List.map_cons, List.flatten_cons]
      rw [ih x x le_rfl hch', expandRange_refl]
      simp

theorem sorted_chain_lt {l : List Int} (hs : l.Sorted (· ≤ ·)) (hn : l.Nodup) :
    List.Chain' (· < ·) l := by
  have hp : l.Pairwise (· < ·) :=
    (List.Pairwise.and hs hn).imp (fun h => lt_of_le_of_ne h.1 h.2)
  exact hp.chain'

theorem insertionSort_perm_eq {l1 l2 : List Int} (h : l1.Perm l2) :
    List.insertionSort (· ≤ ·) l1 = List.insertionSort (· ≤ ·) l2 :=
  List.eq_of_perm_of_sorted
    ((List.perm_insertionSort _ l1).trans (h.trans (List.perm_insertionSort _ l2).symm))
    (List.sorted_insertionSort _ l1) (List.sorted_insertionSort _ l2)

theorem ranges_of_expand {numbers : List Int} (hnd : numbers.Nodup) :
    ((ranges_of numbers).map expandRange).flatten = List.insertionSort (· ≤ ·) numbers := by
  have hndup : (List.insertionSort (· ≤ ·) numbers).Nodup :=
    ((List.perm_insertionSort _ numbers).nodup_iff).mpr hnd
  have hch : List.Chain' (· < ·) (List.insertionSort (· ≤ ·) numbers) :=
    sorted_chain_lt (List.sorted_insertionSort _ numbers) hndup
  rw [ranges_of]
  cases hs : List.insertionSort (· ≤ ·) numbers with
  | nil => rfl
  | cons n rest =>
    rw [hs] at hch
    dsimp only
    rw [pairsLoop_expand rest n n le_rfl hch, expandRange_refl]
    rfl

/-- C8: the set round-trips: `format_ranges` is exactly the rendering of
the run decomposition `ranges_of` joined with `", "`; expanding the runs
of a duplicate-free input recovers precisely its ascending enumeration;
and since the implementation sorts internally, the output does not depend
on input order. -/
theorem c8_round_trip (numbers : List Int) :
    format_ranges numbers =
      String.intercalate ", " ((ranges_of numbers).map (fun r => renderRange r.1 r.2)) ∧
    (numbers.Nodup →
      ((ranges_of numbers).map expandRange).flatten = List.insertionSort (· ≤ ·) numbers) ∧
    (∀ other : List Int, numbers.Perm other → format_ranges numbers = format_ranges other) := by
  refine ⟨?_, fun hnd => ranges_of_expand hnd, ?_⟩
  · rw [format_ranges, ranges_of]
    cases hs : List.insertionSort (· ≤ ·) numbers with
    | nil => rfl
    | cons n rest =>
      dsimp only
      rw [rangesLoop_eq_map]
  · intro other hperm
    rw [format_ranges, format_ranges, insertionSort_perm_eq hperm]

/-- Concrete instantiation of `c8_round_trip`. -/
theorem c8_witness :
    ((ranges_of [3, 1, 2, 5]).map expandRange).flatten =
      List.insertionSort (· ≤ ·) [3, 1, 2, 5] ∧
    format_ranges [3, 1, 2, 5] = format_ranges [1, 2, 3, 5] :=
  ⟨(c8_round_trip [3, 1, 2, 5]).2.1 (by decide),
   (c8_round_trip [3, 1, 2, 5]).2.2 [1, 2, 3, 5] (by decide)⟩
